import Mathlib

/-!
Verification of the vivarium-core process layer (`vivarium/core/process.py`
and `vivarium/core/serialize.py`) against its specification.

Python dictionaries are modelled as association lists (`List (κ × α)`):
lookup returns the first binding, assignment replaces the first binding in
place or appends, mirroring CPython's insertion-order semantics.  Nested
state trees are modelled by the inductive type `PVal`.  Operations that can
raise in Python return `Option`/`Except` or carry an explicit error value.
-/

set_option maxHeartbeats 1000000

namespace Vivarium

/-- First binding of `key` in an association list, i.e. Python `d.get(key)` /
`d[key]`. -/
def getKey {κ α : Type} [DecidableEq κ] : List (κ × α) → κ → Option α
  | [], _ => none
  | (k, v) :: rest, key => if k = key then some v else getKey rest key

/-- Python `key in d`. -/
def hasKey {κ α : Type} [DecidableEq κ] (d : List (κ × α)) (key : κ) : Bool :=
  (getKey d key).isSome

/-- Python `d[key] = v` (also the effect of `dict(d, **{key: v})` on an
existing or fresh key): replace the first binding in place, else append. -/
def setKey {κ α : Type} [DecidableEq κ] : List (κ × α) → κ → α → List (κ × α)
  | [], key, v => [(key, v)]
  | (k, w) :: rest, key, v =>
      if k = key then (k, v) :: rest else (k, w) :: setKey rest key v

/-- Python `d.pop(key, default)` restricted to its effect on the dictionary:
remove the first binding of `key`. -/
def popKey {κ α : Type} [DecidableEq κ] : List (κ × α) → κ → List (κ × α)
  | [], _ => []
  | (k, w) :: rest, key => if k = key then rest else (k, w) :: popKey rest key

/-- Python `d.setdefault(key, v)`. -/
def setdefault {κ α : Type} [DecidableEq κ] (d : List (κ × α)) (key : κ) (v : α) :
    List (κ × α) :=
  if hasKey d key then d else d ++ [(key, v)]

@[simp] theorem getKey_nil {κ α : Type} [DecidableEq κ] (key : κ) :
    getKey ([] : List (κ × α)) key = none := rfl

@[simp] theorem getKey_cons {κ α : Type} [DecidableEq κ] (k : κ) (v : α) (rest) (key : κ) :
    getKey ((k, v) :: rest) key = if k = key then some v else getKey rest key := rfl

theorem getKey_setKey_self {κ α : Type} [DecidableEq κ] (d : List (κ × α)) (key : κ) (v : α) :
    getKey (setKey d key v) key = some v := by
  induction d with
  | nil => simp [setKey]
  | cons hd tl ih =>
      obtain ⟨k, w⟩ := hd
      by_cases h : k = key
      · simp [setKey, h]
      · simp [setKey, h, ih]

theorem getKey_setKey_ne {κ α : Type} [DecidableEq κ] (d : List (κ × α)) (key j : κ) (v : α)
    (hne : j ≠ key) : getKey (setKey d key v) j = getKey d j := by
  induction d with
  | nil => simp [setKey, Ne.symm hne]
  | cons hd tl ih =>
      obtain ⟨k, w⟩ := hd
      by_cases h : k = key
      · subst h
        simp [setKey, Ne.symm hne]
      · simp only [setKey, if_neg h, getKey_cons]
        by_cases hj : k = j
        · simp [hj]
        · simp [hj, ih]

/-- Values stored in vivarium parameter dictionaries and state trees. -/
inductive PVal : Type where
  | num : ℚ → PVal
  | str : String → PVal
  | bool : Bool → PVal
  | pynone : PVal
  | dict : List (String × PVal) → PVal

/-- `assoc_in` (process.py lines 25–54): insert `value` into nested
dictionary `d` at `path`, creating empty dictionaries as needed.
`none` models the `AttributeError` raised when the path tries to descend
through a non-dictionary value (`d.get` is called on it). -/
def assoc_in : PVal → List String → PVal → Option PVal
  | _, [], value => some value
  | .dict d, k :: rest, value =>
      match assoc_in ((getKey d k).getD (.dict [])) rest value with
      | some sub => some (.dict (setKey d k sub))
      | none => none
  | _, _ :: _, _ => none

/-- Read the value stored at `path` in a nested dictionary (the path
resolver's read-back operation). -/
def resolvePath : PVal → List String → Option PVal
  | v, [] => some v
  | .dict d, k :: rest =>
      match getKey d k with
      | some child => resolvePath child rest
      | none => none
  | _, _ :: _ => none

/-- The traversal of `path` through `d` meets only dictionaries (so
`assoc_in` does not raise): at every step with path remaining, the current
node is a dictionary. -/
def pathClear : PVal → List String → Bool
  | _, [] => true
  | .dict d, k :: rest => pathClear ((getKey d k).getD (.dict [])) rest
  | _, _ :: _ => false

@[simp] theorem resolvePath_nil (v : PVal) : resolvePath v [] = some v := by
  cases v <;> rfl

theorem resolvePath_empty_dict_cons (k : String) (rest : List String) :
    resolvePath (.dict []) (k :: rest) = none := by
  simp [resolvePath, getKey]

@[simp] theorem assoc_in_nil (t v : PVal) : assoc_in t [] v = some v := by
  cases t <;> rfl

@[simp] theorem assoc_in_cons_dict (d : List (String × PVal)) (k : String)
    (rest : List String) (v : PVal) :
    assoc_in (.dict d) (k :: rest) v =
      match assoc_in ((getKey d k).getD (.dict [])) rest v with
      | some sub => some (.dict (setKey d k sub))
      | none => none := rfl

@[simp] theorem resolvePath_cons_dict (d : List (String × PVal)) (k : String)
    (rest : List String) :
    resolvePath (.dict d) (k :: rest) =
      match getKey d k with
      | some child => resolvePath child rest
      | none => none := rfl

@[simp] theorem pathClear_cons_dict (d : List (String × PVal)) (k : String)
    (rest : List String) :
    pathClear (.dict d) (k :: rest) =
      pathClear ((getKey d k).getD (.dict [])) rest := rfl

/-- C1 (counterexample to the claim as stated): on the nested mapping
`{'a': 1}` with path `('a', 'b')`, `assoc_in` does not return a tree at
all — it raises `AttributeError` because it calls `.get` on the
non-dictionary value `1` found along the path (modelled as `none`). -/
theorem assoc_in_raises_on_nondict_prefix :
    assoc_in (.dict [("a", .num 1)]) ["a", "b"] (.num 2) = none := rfl

/-- C1 (amended): for every nested mapping `tree`, path `p` and value `v`
such that `p` does not descend through a non-dictionary value of `tree`
(`pathClear`), `assoc_in tree p v` returns a tree in which: reading back
path `p` yields exactly `v`; every path neither a prefix nor an extension
of `p` resolves to the same value as in `tree`; and every proper prefix of
`p` resolves to a dictionary (missing mappings along `p` are created
empty). -/
theorem assoc_in_insert (p : List String) (t v : PVal)
    (h : pathClear t p = true) :
    ∃ r, assoc_in t p v = some r ∧
      resolvePath r p = some v ∧
      (∀ q : List String, ¬ q <+: p → ¬ p <+: q →
        resolvePath r q = resolvePath t q) ∧
      (∀ q : List String, q <+: p → q ≠ p →
        ∃ d, resolvePath r q = some (PVal.dict d)) := by
  induction p generalizing t with
  | nil =>
      refine ⟨v, by simp, by simp, ?_, ?_⟩
      · intro q hq hpq
        exact absurd List.nil_prefix hpq
      · intro q hq hne
        exact absurd (List.prefix_nil.mp hq) hne
  | cons k rest ih =>
      cases t with
      | num x => simp [pathClear] at h
      | str x => simp [pathClear] at h
      | bool x => simp [pathClear] at h
      | pynone => simp [pathClear] at h
      | dict d =>
          have h' : pathClear ((getKey d k).getD (.dict [])) rest = true := h
          obtain ⟨r', ha, hres, hoff, hpre⟩ := ih ((getKey d k).getD (.dict [])) h'
          refine ⟨.dict (setKey d k r'), by simp [ha], ?_, ?_, ?_⟩
          · simp [getKey_setKey_self, hres]
          · intro q hq hpq
            cases q with
            | nil => exact absurd List.nil_prefix hq
            | cons j qrest =>
                by_cases hj : j = k
                · cases hj
                  have hq' : ¬ qrest <+: rest := fun hh =>
                    hq (List.cons_prefix_cons.mpr ⟨rfl, hh⟩)
                  have hpq' : ¬ rest <+: qrest := fun hh =>
                    hpq (List.cons_prefix_cons.mpr ⟨rfl, hh⟩)
                  have hofq := hoff qrest hq' hpq'
                  cases hgd : getKey d k with
                  | some c =>
                      rw [hgd] at hofq
                      simp only [Option.getD_some] at hofq
                      simp [getKey_setKey_self, hgd, hofq]
                  | none =>
                      rw [hgd] at hofq
                      simp only [Option.getD_none] at hofq
                      cases qrest with
                      | nil => exact absurd List.nil_prefix hq'
                      | cons j' qrest' =>
                          simp [getKey_setKey_self, hgd, hofq,
                            resolvePath_empty_dict_cons]
                · simp [getKey_setKey_ne d k j r' hj]
          · intro q hq hne
            cases q with
            | nil => exact ⟨setKey d k r', by simp⟩
            | cons j qrest =>
                obtain ⟨hjk, hq'⟩ := List.cons_prefix_cons.mp hq
                subst hjk
                have hner : qrest ≠ rest := fun hh => hne (by rw [hh])
                obtain ⟨dd, hdd⟩ := hpre qrest hq' hner
                exact ⟨dd, by simp [getKey_setKey_self, hdd]⟩

/-- Witness for `assoc_in_insert` at the concrete tree `{'a': {'x': 5}, 'z': 7}`,
path `('a', 'b')` and value `2`. -/
theorem assoc_in_insert_witness :
    pathClear (.dict [("a", .dict [("x", .num 5)]), ("z", .num 7)]) ["a", "b"]
      = true ∧
    (∃ r, assoc_in (.dict [("a", .dict [("x", .num 5)]), ("z", .num 7)])
        ["a", "b"] (.num 2) = some r ∧
      resolvePath r ["a", "b"] = some (.num 2) ∧
      (∀ q : List String, ¬ q <+: ["a", "b"] → ¬ ["a", "b"] <+: q →
        resolvePath r q =
          resolvePath (.dict [("a", .dict [("x", .num 5)]), ("z", .num 7)]) q) ∧
      (∀ q : List String, q <+: ["a", "b"] → q ≠ ["a", "b"] →
        ∃ d, resolvePath r q = some (PVal.dict d))) :=
  ⟨rfl, assoc_in_insert ["a", "b"]
    (.dict [("a", .dict [("x", .num 5)]), ("z", .num 7)]) (.num 2) rfl⟩

/-! ### Heap-level model of `assoc_in`

To reason about mutation we model Python's object heap explicitly:
dictionaries live at addresses, values are primitives or references,
`d.get` only reads, the literal `{}` and `dict(d, **{...})` allocate fresh
dictionaries.  Fresh addresses are `h.next, h.next + 1, …`. -/

inductive HVal : Type where
  | prim : ℚ → HVal
  | ref : Nat → HVal
  deriving DecidableEq

structure Heap : Type where
  objs : List (Nat × List (String × HVal))
  next : Nat
  deriving DecidableEq

/-- Dereference an address to the entries of the dictionary stored there. -/
def Heap.lookupObj (h : Heap) (a : Nat) : Option (List (String × HVal)) :=
  getKey h.objs a

/-- Allocate a new dictionary, returning the heap and its fresh address. -/
def Heap.alloc (h : Heap) (entries : List (String × HVal)) : Heap × Nat :=
  (⟨(h.next, entries) :: h.objs, h.next + 1⟩, h.next)

/-- Every allocated address is below the allocation counter. -/
def Heap.WF (h : Heap) : Prop := ∀ p ∈ h.objs, p.1 < h.next

instance (h : Heap) : Decidable h.WF :=
  decidable_of_iff (∀ p ∈ h.objs, p.1 < h.next) Iff.rfl

/-- `h'` is `h` plus freshly allocated objects: nothing pre-existing is
overwritten. -/
def Heap.Extends (h' h : Heap) : Prop :=
  h.next ≤ h'.next ∧
    ∃ extra, h'.objs = extra ++ h.objs ∧ ∀ q ∈ extra, h.next ≤ q.1

theorem Heap.Extends.refl (h : Heap) : h.Extends h :=
  ⟨le_rfl, [], rfl, by simp⟩

theorem Heap.Extends.trans {h₃ h₂ h₁ : Heap}
    (h32 : h₃.Extends h₂) (h21 : h₂.Extends h₁) : h₃.Extends h₁ := by
  obtain ⟨hn32, e2, he2, hb2⟩ := h32
  obtain ⟨hn21, e1, he1, hb1⟩ := h21
  refine ⟨le_trans hn21 hn32, e2 ++ e1, by rw [he2, he1, List.append_assoc], ?_⟩
  intro q hq
  rcases List.mem_append.mp hq with hq | hq
  · exact le_trans hn21 (hb2 q hq)
  · exact hb1 q hq

theorem Heap.alloc_extends (h : Heap) (es : List (String × HVal)) :
    (h.alloc es).1.Extends h :=
  ⟨Nat.le_succ _, [(h.next, es)], rfl, by simp⟩

theorem Heap.alloc_WF {h : Heap} (hwf : h.WF) (es : List (String × HVal)) :
    (h.alloc es).1.WF := by
  intro q hq
  rcases List.mem_cons.mp hq with hq | hq
  · subst hq; exact Nat.lt_succ_self _
  · exact Nat.lt_succ_of_lt (hwf q hq)

theorem getKey_mem {κ α : Type} [DecidableEq κ] {l : List (κ × α)} {key : κ} {v : α}
    (hg : getKey l key = some v) : (key, v) ∈ l := by
  induction l with
  | nil => simp [getKey] at hg
  | cons hd tl ih =>
      obtain ⟨k, w⟩ := hd
      rw [getKey_cons] at hg
      split at hg
      · next hk =>
          obtain rfl := hk
          obtain rfl : w = v := by injection hg
          exact List.mem_cons_self _ _
      · exact List.mem_cons_of_mem _ (ih hg)

theorem getKey_append_of_keys_ne {κ α : Type} [DecidableEq κ]
    {extra l : List (κ × α)} {key : κ} (hne : ∀ q ∈ extra, q.1 ≠ key) :
    getKey (extra ++ l) key = getKey l key := by
  induction extra with
  | nil => rfl
  | cons hd tl ih =>
      obtain ⟨k, w⟩ := hd
      have hk : k ≠ key := hne (k, w) (List.mem_cons_self _ _)
      simp only [List.cons_append, getKey_cons, if_neg hk]
      exact ih fun q hq => hne q (List.mem_cons_of_mem _ hq)

theorem Heap.Extends.lookupObj_eq {h' h : Heap} (hext : h'.Extends h)
    (hwf : h.WF) {a : Nat} {o : List (String × HVal)}
    (hl : h.lookupObj a = some o) : h'.lookupObj a = some o := by
  obtain ⟨hn, extra, he, hb⟩ := hext
  have ha : a < h.next := hwf _ (getKey_mem hl)
  unfold Heap.lookupObj at *
  rw [he, getKey_append_of_keys_ne]
  · exact hl
  · intro q hq hqa
    exact absurd ha (by rw [← hqa]; exact Nat.not_lt.mpr (hb q hq))

/-- Heap-level embedding of `assoc_in` (process.py lines 25–54).  The
second component is `none` when Python raises (`.get` on a primitive or a
dangling reference); the first component is the heap as left behind. -/
def assocInH : Heap → HVal → List String → HVal → Heap × Option HVal
  | h, _, [], value => (h, some value)
  | h, .prim _, _ :: _, _ => (h, none)
  | h, .ref a, k :: rest, value =>
      match h.lookupObj a with
      | none => (h, none)
      | some entries =>
          match getKey entries k with
          | some child =>
              match assocInH h child rest value with
              | (h1, none) => (h1, none)
              | (h1, some sub) =>
                  let al := h1.alloc (setKey entries k sub)
                  (al.1, some (.ref al.2))
          | none =>
              let al0 := h.alloc []
              match assocInH al0.1 (.ref al0.2) rest value with
              | (h1, none) => (h1, none)
              | (h1, some sub) =>
                  let al := h1.alloc (setKey entries k sub)
                  (al.1, some (.ref al.2))

@[simp] theorem assocInH_nil (h : Heap) (d v : HVal) :
    assocInH h d [] v = (h, some v) := by cases d <;> rfl

@[simp] theorem assocInH_prim (h : Heap) (x : ℚ) (k : String)
    (rest : List String) (v : HVal) :
    assocInH h (.prim x) (k :: rest) v = (h, none) := rfl

theorem assocInH_ref_dangling {h : Heap} {a : Nat} (hl : h.lookupObj a = none)
    (k : String) (rest : List String) (v : HVal) :
    assocInH h (.ref a) (k :: rest) v = (h, none) := by
  simp only [assocInH, hl]

theorem assocInH_ref_found_err {h h1 : Heap} {a : Nat} {entries} {k : String}
    {child : HVal} {rest : List String} {v : HVal}
    (hl : h.lookupObj a = some entries) (hg : getKey entries k = some child)
    (hrec : assocInH h child rest v = (h1, none)) :
    assocInH h (.ref a) (k :: rest) v = (h1, none) := by
  simp only [assocInH, hl, hg, hrec]

theorem assocInH_ref_found_ok {h h1 : Heap} {a : Nat} {entries} {k : String}
    {child sub : HVal} {rest : List String} {v : HVal}
    (hl : h.lookupObj a = some entries) (hg : getKey entries k = some child)
    (hrec : assocInH h child rest v = (h1, some sub)) :
    assocInH h (.ref a) (k :: rest) v =
      ((h1.alloc (setKey entries k sub)).1, some (.ref h1.next)) := by
  simp only [assocInH, hl, hg, hrec]
  rfl

theorem assocInH_ref_missing_err {h h1 : Heap} {a : Nat} {entries} {k : String}
    {rest : List String} {v : HVal}
    (hl : h.lookupObj a = some entries) (hg : getKey entries k = none)
    (hrec : assocInH (h.alloc []).1 (.ref (h.alloc []).2) rest v = (h1, none)) :
    assocInH h (.ref a) (k :: rest) v = (h1, none) := by
  simp only [assocInH, hl, hg, hrec]

theorem assocInH_ref_missing_ok {h h1 : Heap} {a : Nat} {entries} {k : String}
    {sub : HVal} {rest : List String} {v : HVal}
    (hl : h.lookupObj a = some entries) (hg : getKey entries k = none)
    (hrec : assocInH (h.alloc []).1 (.ref (h.alloc []).2) rest v = (h1, some sub)) :
    assocInH h (.ref a) (k :: rest) v =
      ((h1.alloc (setKey entries k sub)).1, some (.ref h1.next)) := by
  simp only [assocInH, hl, hg, hrec]
  rfl

theorem assocInH_extends (p : List String) :
    ∀ (h : Heap) (d v : HVal), h.WF →
      (assocInH h d p v).1.Extends h ∧ (assocInH h d p v).1.WF ∧
      (∀ r, (assocInH h d p v).2 = some r → p ≠ [] →
        ∃ a, r = HVal.ref a ∧ h.next ≤ a) := by
  induction p with
  | nil =>
      intro h d v hwf
      rw [assocInH_nil]
      exact ⟨Heap.Extends.refl h, hwf, fun r _ hne => absurd rfl hne⟩
  | cons k rest ih =>
      intro h d v hwf
      cases d with
      | prim x =>
          rw [assocInH_prim]
          exact ⟨Heap.Extends.refl h, hwf, by simp⟩
      | ref a =>
          cases hl : h.lookupObj a with
          | none =>
              rw [assocInH_ref_dangling hl]
              exact ⟨Heap.Extends.refl h, hwf, by simp⟩
          | some entries =>
              cases hg : getKey entries k with
              | some child =>
                  obtain ⟨hext1, hwf1, _⟩ := ih h child v hwf
                  cases hrec : assocInH h child rest v with
                  | mk h1 res =>
                      rw [hrec] at hext1 hwf1
                      cases res with
                      | none =>
                          rw [assocInH_ref_found_err hl hg hrec]
                          exact ⟨hext1, hwf1, by simp⟩
                      | some sub =>
                          rw [assocInH_ref_found_ok hl hg hrec]
                          refine ⟨Heap.Extends.trans
                            (Heap.alloc_extends h1 (setKey entries k sub)) hext1,
                            Heap.alloc_WF hwf1 _, ?_⟩
                          intro r hr _
                          simp only [Option.some.injEq] at hr
                          exact ⟨h1.next, hr.symm, hext1.1⟩
              | none =>
                  have hwf0 : (h.alloc []).1.WF := Heap.alloc_WF hwf []
                  obtain ⟨hext1, hwf1, _⟩ :=
                    ih (h.alloc []).1 (.ref (h.alloc []).2) v hwf0
                  cases hrec : assocInH (h.alloc []).1 (.ref (h.alloc []).2) rest v with
                  | mk h1 res =>
                      rw [hrec] at hext1 hwf1
                      have hext1' : h1.Extends h :=
                        Heap.Extends.trans hext1 (Heap.alloc_extends h [])
                      cases res with
                      | none =>
                          rw [assocInH_ref_missing_err hl hg hrec]
                          exact ⟨hext1', hwf1, by simp⟩
                      | some sub =>
                          rw [assocInH_ref_missing_ok hl hg hrec]
                          refine ⟨Heap.Extends.trans
                            (Heap.alloc_extends h1 (setKey entries k sub)) hext1',
                            Heap.alloc_WF hwf1 _, ?_⟩
                          intro r hr _
                          simp only [Option.some.injEq] at hr
                          exact ⟨h1.next, hr.symm, hext1'.1⟩

/-- C8: `assoc_in` never mutates its input.  For every well-formed heap,
tree value and path, every dictionary object reachable in the input heap
holds exactly the same entries after evaluating `assoc_in` (the heap is
only extended with fresh objects), and on success with a nonempty path the
returned root is a freshly constructed dictionary. -/
theorem assoc_in_no_mutation (h : Heap) (d v : HVal) (p : List String)
    (hwf : h.WF) :
    (∀ a o, h.lookupObj a = some o →
      (assocInH h d p v).1.lookupObj a = some o) ∧
    (∀ r, (assocInH h d p v).2 = some r → p ≠ [] →
      ∃ a, r = HVal.ref a ∧ h.next ≤ a) := by
  obtain ⟨hext, _, hfresh⟩ := assocInH_extends p h d v hwf
  exact ⟨fun a o hl => hext.lookupObj_eq hwf hl, hfresh⟩

/-- Witness for `assoc_in_no_mutation` on the concrete heap holding
`{'a': 1}` at address 0, inserting value `2` at path `('b', 'c')`. -/
theorem assoc_in_no_mutation_witness :
    (Heap.mk [(0, [("a", HVal.prim 1)])] 1).WF ∧
    ((∀ a o, (Heap.mk [(0, [("a", HVal.prim 1)])] 1).lookupObj a = some o →
      (assocInH (Heap.mk [(0, [("a", HVal.prim 1)])] 1) (.ref 0) ["b", "c"]
        (.prim 2)).1.lookupObj a = some o) ∧
    (∀ r, (assocInH (Heap.mk [(0, [("a", HVal.prim 1)])] 1) (.ref 0) ["b", "c"]
        (.prim 2)).2 = some r → ["b", "c"] ≠ [] →
      ∃ a, r = HVal.ref a ∧ (Heap.mk [(0, [("a", HVal.prim 1)])] 1).next ≤ a)) :=
  ⟨by decide, assoc_in_no_mutation (Heap.mk [(0, [("a", HVal.prim 1)])] 1)
    (.ref 0) (.prim 2) ["b", "c"] (by decide)⟩

/-! ### Parallel process adapter (`_run_update`, `ParallelProcess`)

The pipe between requester and worker is a FIFO channel; the requester
keeps at most one outstanding request, so the interaction is determined by
the ordered list of messages sent.  A message is an interval together with
the transmitted port states (`none` models Python `None`, as in the
sentinel `(-1, None)`); `next_update` is an arbitrary function `f`.  The
worker's behaviour is recorded as a trace of observable events. -/

/-- Observable actions of the `_run_update` worker loop. -/
inductive WEvent (σ υ : Type) : Type where
  | recv : ℚ → Option σ → WEvent σ υ
  | callNext : ℚ → Option σ → WEvent σ υ
  | send : υ → WEvent σ υ
  | close : WEvent σ υ
  deriving DecidableEq

/-- `_run_update` (process.py lines 311–325): the worker repeatedly
receives `(interval, states)`; on `interval == -1` it leaves the loop and
closes its end of the channel, otherwise it computes
`process.next_update(interval, states)` and sends the update back.  The
argument list holds the messages arriving on the channel in order; the
result is the trace of worker events. -/
def run_update {σ υ : Type} (f : ℚ → Option σ → υ) :
    List (ℚ × Option σ) → List (WEvent σ υ)
  | [] => []
  | (interval, states) :: rest =>
      .recv interval states ::
        (if interval = -1 then [.close]
         else .callNext interval states :: .send (f interval states) ::
           run_update f rest)

/-- The updates the requester's successive `ParallelProcess.get()` calls
return: the `send` events of the worker trace, in channel (FIFO) order. -/
def replies {σ υ : Type} (tr : List (WEvent σ υ)) : List υ :=
  tr.filterMap fun e =>
    match e with
    | .send u => some u
    | _ => none

/-- State of a `ParallelProcess` requester: the messages it has sent on
its end of the pipe, in order. -/
structure ParallelProcessSt (σ : Type) : Type where
  sent : List (ℚ × Option σ)

/-- `ParallelProcess.update` (process.py lines 348–357): send
`(interval, states)` to the worker. -/
def ParallelProcess.update {σ : Type} (st : ParallelProcessSt σ)
    (interval : ℚ) (states : σ) : ParallelProcessSt σ :=
  ⟨st.sent ++ [(interval, some states)]⟩

/-- `ParallelProcess.end` (process.py lines 367–370): send the sentinel
`(-1, None)`, then join the worker. -/
def ParallelProcess.endProcess {σ : Type} (st : ParallelProcessSt σ) :
    ParallelProcessSt σ :=
  ⟨st.sent ++ [(-1, none)]⟩

/-- Requesting updates for `reqs` in order (an `update()`/`get()` pair per
request) and collecting the replies. -/
def ParallelProcess.collect {σ υ : Type} (f : ℚ → Option σ → υ)
    (reqs : List (ℚ × σ)) : List υ :=
  replies (run_update f
    (reqs.foldl (fun st p => ParallelProcess.update st p.1 p.2) ⟨[]⟩).sent)

/-- Calling `next_update` directly on the unwrapped process for each
request, in order. -/
def direct_updates {σ υ : Type} (f : ℚ → Option σ → υ)
    (reqs : List (ℚ × σ)) : List υ :=
  reqs.map fun p => f p.1 (some p.2)

/-- Is this event a `next_update` call with the reserved interval `-1`? -/
def isSentinelCall {σ υ : Type} : WEvent σ υ → Bool
  | .callNext interval _ => interval = -1
  | _ => false

theorem foldl_update_sent {σ : Type} (reqs : List (ℚ × σ))
    (st : ParallelProcessSt σ) :
    (reqs.foldl (fun st p => ParallelProcess.update st p.1 p.2) st).sent =
      st.sent ++ reqs.map (fun p => (p.1, some p.2)) := by
  induction reqs generalizing st with
  | nil => simp
  | cons hd tl ih =>
      rw [List.foldl_cons, ih]
      simp [ParallelProcess.update]

theorem replies_run_update {σ υ : Type} (f : ℚ → Option σ → υ)
    (msgs : List (ℚ × Option σ)) (h : ∀ m ∈ msgs, m.1 ≠ -1) :
    replies (run_update f msgs) = msgs.map fun m => f m.1 m.2 := by
  induction msgs with
  | nil => rfl
  | cons hd tl ih =>
      obtain ⟨interval, states⟩ := hd
      have hne : interval ≠ -1 := h (interval, states) (List.mem_cons_self _ _)
      simp only [run_update, if_neg hne, replies, List.filterMap_cons, List.map_cons]
      simpa [replies] using ih fun m hm => h m (List.mem_cons_of_mem _ hm)

/-- C2: for every process (`next_update` function `f`) and finite request
sequence whose intervals all differ from `-1`, driving the wrapped process
through `ParallelProcess.update`/`get` for each request in order yields
exactly the updates obtained by calling `next_update` directly, in the
same order. -/
theorem parallel_process_refines_direct {σ υ : Type} (f : ℚ → Option σ → υ)
    (reqs : List (ℚ × σ)) (h : ∀ p ∈ reqs, p.1 ≠ -1) :
    ParallelProcess.collect f reqs = direct_updates f reqs := by
  unfold ParallelProcess.collect direct_updates
  rw [foldl_update_sent]
  simp only [List.nil_append]
  rw [replies_run_update]
  · simp
  · intro m hm
    obtain ⟨p, hp, rfl⟩ := List.mem_map.mp hm
    exact h p hp

/-- Witness for `parallel_process_refines_direct` on two concrete requests. -/
theorem parallel_process_refines_direct_witness :
    (∀ p ∈ [((1 : ℚ), (10 : ℚ)), (2, 20)], p.1 ≠ -1) ∧
    ParallelProcess.collect (fun t s => t + s.getD 0)
        [((1 : ℚ), (10 : ℚ)), (2, 20)] =
      direct_updates (fun t s => t + s.getD 0) [((1 : ℚ), (10 : ℚ)), (2, 20)] :=
  ⟨by decide, parallel_process_refines_direct _ _ (by decide)⟩

/-- C3: after a sentinel-free request history, `ParallelProcess.end` sends
`(-1, None)`; the worker receives it and the trace ends immediately with
the channel close: no `next_update` call, no reply, and no event of any
kind after the sentinel. -/
theorem end_sends_sentinel_and_worker_closes {σ υ : Type}
    (f : ℚ → Option σ → υ) (st : ParallelProcessSt σ)
    (h : ∀ m ∈ st.sent, m.1 ≠ -1) :
    run_update f (ParallelProcess.endProcess st).sent =
      run_update f st.sent ++ [.recv (-1) none, .close] := by
  obtain ⟨msgs⟩ := st
  induction msgs with
  | nil => simp [ParallelProcess.endProcess, run_update]
  | cons hd tl ih =>
      obtain ⟨interval, states⟩ := hd
      have hne : interval ≠ -1 := h (interval, states) (List.mem_cons_self _ _)
      have htl := ih fun m hm => h m (List.mem_cons_of_mem _ hm)
      simp only [ParallelProcess.endProcess, List.cons_append, run_update,
        if_neg hne] at htl ⊢
      simp [htl]

/-- Witness for `end_sends_sentinel_and_worker_closes` after one ordinary
request. -/
theorem end_sends_sentinel_witness :
    (∀ m ∈ (ParallelProcessSt.mk [((2 : ℚ), some (5 : ℚ))]).sent, m.1 ≠ -1) ∧
    run_update (fun t (s : Option ℚ) => t + s.getD 0)
        (ParallelProcess.endProcess ⟨[((2 : ℚ), some (5 : ℚ))]⟩).sent =
      run_update (fun t (s : Option ℚ) => t + s.getD 0)
        [((2 : ℚ), some (5 : ℚ))] ++ [.recv (-1) none, .close] :=
  ⟨by decide, end_sends_sentinel_and_worker_closes _ _ (by decide)⟩

/-- C9: the worker's termination test inspects only the interval: for
*every* transmitted states value `s`, a message `(-1, s)` ends the loop
with no `next_update` call and no reply (first conjunct), and consequently
no trace of the worker ever contains a `next_update` call with interval
`-1` (second conjunct). -/
theorem sentinel_checks_interval_only {σ υ : Type} (f : ℚ → Option σ → υ)
    (s : Option σ) (rest msgs : List (ℚ × Option σ)) :
    run_update f ((-1, s) :: rest) = [.recv (-1) s, .close] ∧
    (run_update f msgs).all (fun e => !isSentinelCall e) = true := by
  constructor
  · simp [run_update]
  · induction msgs with
    | nil => rfl
    | cons hd tl ih =>
        obtain ⟨interval, states⟩ := hd
        by_cases hne : interval = -1
        · subst hne
          simp [run_update, isSentinelCall]
        · simp only [run_update, if_neg hne, List.all_cons, ih, Bool.and_true]
          simp [isSentinelCall, hne]

/-! ### `Process` construction and schemas -/

mutual

/-- Modelled from the spec: `deep_merge` from `vivarium.library.dict_utils`
is imported by process.py but its source is not part of the sampled
repository section.  The spec describes it as "deep-merge, override wins":
recurse where both sides are mappings, otherwise take the override value. -/
def deepMergeVal : PVal → PVal → PVal
  | .dict a, .dict b => .dict (deepMergeDict a b)
  | _, b => b

/-- Modelled from the spec: merge the second dictionary into the first,
key by key, recursing on doubly-mapping entries (see `deepMergeVal`). -/
def deepMergeDict : List (String × PVal) → List (String × PVal) →
    List (String × PVal)
  | d, [] => d
  | d, (k, v) :: rest =>
      deepMergeDict
        (setKey d k
          (match getKey d k with
           | some old => deepMergeVal old v
           | none => v))
        rest

end

/-- `DEFAULT_TIME_STEP` (process.py line 22). -/
def DEFAULT_TIME_STEP : PVal := .num 1

/-- A constructed `Process` instance: the fields assigned by
`Process.__init__`. -/
structure Process : Type where
  name : PVal
  parameters : List (String × PVal)
  schema_override : PVal
  parallel : PVal

/-- `Process.__init__` (process.py lines 84–107): deep-copy the class
`defaults`, deep-merge the given parameters over them, pop `_schema` into
the schema-override set and `_parallel` into the isolation flag, then
default `time_step` to `DEFAULT_TIME_STEP`.  `name` is taken from the
given parameters when present, else the class name. -/
def Process.init (className : String)
    (defaults given : List (String × PVal)) : Process :=
  let params1 := deepMergeDict defaults given
  let schemaOv := (getKey params1 "_schema").getD (.dict [])
  let params2 := popKey params1 "_schema"
  let par := (getKey params2 "_parallel").getD (.bool false)
  let params3 := popKey params2 "_parallel"
  { name := (getKey given "name").getD (.str className)
    parameters := setdefault params3 "time_step" DEFAULT_TIME_STEP
    schema_override := schemaOv
    parallel := par }

/-- `Process.calculate_timestep` (process.py lines 211–218): discards its
`states` argument and returns `self.parameters['time_step']` (`none`
models the `KeyError` when the key is absent). -/
def Process.calculate_timestep (p : Process) (states : Option PVal) :
    Option PVal :=
  let _ := states
  getKey p.parameters "time_step"

/-- `Process.merge_overrides` (process.py lines 178–184): deep-merge the
override into the process's schema-override set. -/
def Process.merge_overrides (p : Process) (override : PVal) : Process :=
  { p with schema_override := deepMergeVal p.schema_override override }

/-- `Process.get_schema` (process.py lines 164–176): deep-copy
`ports_schema()`, deep-merge the schema-override set into it, then the
optional explicit override (`None` merges nothing). -/
def Process.get_schema (ports_schema : PVal) (p : Process)
    (override : Option PVal) : PVal :=
  let ports := deepMergeVal ports_schema p.schema_override
  match override with
  | some o => deepMergeVal ports o
  | none => ports

/-- A generated hierarchy of processes: leaf `Process` instances inside
nested dictionaries, as produced by `generate_processes`. -/
inductive ProcTree : Type where
  | leaf : Process → ProcTree
  | branch : List (String × ProcTree) → ProcTree

/-- `_override_schemas` (process.py lines 57–65): for each key of
`overrides`, look the key up in `processes` (`none` models the `KeyError`
when absent); a `Process` found there absorbs the override via
`merge_overrides`, a nested dictionary is recursed into with the override's
entries. -/
def overrideSchemas :
    List (String × PVal) → List (String × ProcTree) →
      Option (List (String × ProcTree))
  | [], processes => some processes
  | (key, override) :: rest, processes =>
      match getKey processes key with
      | none => none
      | some (.leaf p) =>
          overrideSchemas rest
            (setKey processes key (.leaf (p.merge_overrides override)))
      | some (.branch sub) =>
          match override with
          | .dict ov =>
              match overrideSchemas ov sub with
              | none => none
              | some sub' =>
                  overrideSchemas rest (setKey processes key (.branch sub'))
          | _ => none

/-- Look up the subtree of a process hierarchy at a (nonempty) key path. -/
def lookupProc : List (String × ProcTree) → List String → Option ProcTree
  | _, [] => none
  | procs, [k] => getKey procs k
  | procs, k :: rest =>
      match getKey procs k with
      | some (.branch sub) => lookupProc sub rest
      | _ => none

/-- Look up the override value at a (nonempty) key path of a nested
override dictionary. -/
def lookupOverride : List (String × PVal) → List String → Option PVal
  | _, [] => none
  | ov, [k] => getKey ov k
  | ov, k :: rest =>
      match getKey ov k with
      | some (.dict sub) => lookupOverride sub rest
      | _ => none

/-- Duplicate-free keys, computed (Python dictionaries cannot repeat a
key). -/
def keysNodup {κ α : Type} [DecidableEq κ] : List (κ × α) → Bool
  | [] => true
  | (k, _) :: rest => !hasKey rest k && keysNodup rest

mutual

/-- One override value against the hierarchy entry it names: an override
reaching a leaf `Process` must be a dictionary (it is deep-merged into the
schema-override set), an override of a nested dictionary must be a
dictionary recursively aligned with it. -/
def alignedVal : PVal → ProcTree → Bool
  | .dict _, .leaf _ => true
  | .dict ov, .branch sub => keysNodup ov && alignedOv ov sub
  | _, _ => false

/-- The override tree and the process tree have the same key structure:
every override key names an existing entry it is aligned with
(`alignedVal`), with duplicate-free keys at every level. -/
def alignedOv : List (String × PVal) → List (String × ProcTree) → Bool
  | [], _ => true
  | (key, override) :: rest, procs =>
      (match getKey procs key with
       | some t => alignedVal override t
       | none => false) && alignedOv rest procs

end

/-- Variables of one port during `Process.default_state`
(process.py lines 220–237): a variable whose (dictionary) schema entry has
a `_default` key is written into `state[port]`, creating the port entry on
first use.  `none` models the `TypeError` raised by `'_default' in value`
or `value['_default']` when the entry is not a dictionary (for a string
entry, `in` is a substring test and the subscript raises only when it
succeeds). -/
def defaultStateVars (port : String) :
    List (String × PVal) → List (String × PVal) →
      Option (List (String × PVal))
  | [], state => some state
  | (key, .dict flags) :: vars, state =>
      match getKey flags "_default" with
      | some dv =>
          let cur :=
            match getKey state port with
            | some (.dict d) => d
            | _ => []
          defaultStateVars port vars (setKey state port (.dict (setKey cur key dv)))
      | none => defaultStateVars port vars state
  | (_, .str s) :: vars, state =>
      if "_default".toList <:+: s.toList then none
      else defaultStateVars port vars state
  | (_, _) :: _, _ => none

/-- Outer loop of `Process.default_state` over the ports of the combined
schema; `none` models the `AttributeError` from `states.items()` when a
port's schema is not a dictionary. -/
def defaultStatePorts :
    List (String × PVal) → List (String × PVal) →
      Option (List (String × PVal))
  | [], state => some state
  | (port, .dict vars) :: ports, state =>
      match defaultStateVars port vars state with
      | some state' => defaultStatePorts ports state'
      | none => none
  | (_, _) :: _, _ => none

/-- `Process.default_state` (process.py lines 220–237): iterate the
combined schema `get_schema()` and collect each variable's `_default`. -/
def Process.default_state (ports_schema : PVal) (p : Process) :
    Option (List (String × PVal)) :=
  match Process.get_schema ports_schema p none with
  | .dict ports => defaultStatePorts ports []
  | _ => none

/-- Read `schema[port][var]` in a two-level nested dictionary value. -/
def lookup2 : PVal → String → String → Option PVal
  | .dict d, port, var =>
      match getKey d port with
      | some (.dict vars) => getKey vars var
      | _ => none
  | _, _, _ => none

/-- Every variable of a port maps to a dictionary of schema flags. -/
def varsShaped (vars : List (String × PVal)) : Bool :=
  vars.all fun kv =>
    match kv.2 with
    | .dict _ => true
    | _ => false

/-- One port entry of the combined schema is a dictionary of variables
with duplicate-free keys, each variable holding a flag dictionary. -/
def portShaped (pv : String × PVal) : Bool :=
  match pv.2 with
  | .dict vars => decide ((vars.map Prod.fst).Nodup) && varsShaped vars
  | _ => false

/-- The combined schema has the two-level port/variable shape
`default_state` iterates, with duplicate-free keys at both levels and a
dictionary of flags for every variable. -/
def schemaWellShaped : PVal → Bool
  | .dict ports => decide ((ports.map Prod.fst).Nodup) && ports.all portShaped
  | _ => false

/-- The `(variable, default)` pairs a port's schema contributes to
`default_state`: the variables whose flag dictionary has `_default`, with
that default value, in declaration order. -/
def varsDefaults (vars : List (String × PVal)) : List (String × PVal) :=
  vars.filterMap fun kv =>
    match kv.2 with
    | .dict flags => (getKey flags "_default").map fun dv => (kv.1, dv)
    | _ => none

@[simp] theorem hasKey_nil {κ α : Type} [DecidableEq κ] (key : κ) :
    hasKey ([] : List (κ × α)) key = false := rfl

@[simp] theorem hasKey_cons {κ α : Type} [DecidableEq κ] (k : κ) (v : α) (rest) (key : κ) :
    hasKey ((k, v) :: rest) key = if k = key then true else hasKey rest key := by
  unfold hasKey
  by_cases h : k = key <;> simp [h]

theorem getKey_append {κ α : Type} [DecidableEq κ] (l₁ l₂ : List (κ × α)) (key : κ) :
    getKey (l₁ ++ l₂) key =
      match getKey l₁ key with
      | some v => some v
      | none => getKey l₂ key := by
  induction l₁ with
  | nil => simp
  | cons hd tl ih =>
      obtain ⟨k, w⟩ := hd
      by_cases h : k = key <;> simp [h, ih]

theorem getKey_eq_none_of_not_mem_keys {κ α : Type} [DecidableEq κ]
    {d : List (κ × α)} {key : κ} (h : key ∉ d.map Prod.fst) :
    getKey d key = none := by
  induction d with
  | nil => rfl
  | cons hd tl ih =>
      obtain ⟨k, w⟩ := hd
      simp only [List.map_cons, List.mem_cons] at h
      push_neg at h
      simp [Ne.symm h.1, ih h.2]

theorem getKey_popKey_ne {κ α : Type} [DecidableEq κ] (d : List (κ × α))
    (key j : κ) (hne : j ≠ key) : getKey (popKey d key) j = getKey d j := by
  induction d with
  | nil => rfl
  | cons hd tl ih =>
      obtain ⟨k, w⟩ := hd
      by_cases h : k = key
      · subst h
        simp [popKey, Ne.symm hne]
      · simp only [popKey, if_neg h, getKey_cons]
        by_cases hj : k = j <;> simp [hj, ih]

theorem popKey_sublist {κ α : Type} [DecidableEq κ] (d : List (κ × α)) (key : κ) :
    List.Sublist (popKey d key) d := by
  induction d with
  | nil => exact List.Sublist.refl _
  | cons hd tl ih =>
      obtain ⟨k, w⟩ := hd
      by_cases h : k = key
      · simp only [popKey, if_pos h]
        exact List.sublist_cons_self _ _
      · simp only [popKey, if_neg h]
        exact List.Sublist.cons₂ _ ih

theorem nodup_keys_popKey {κ α : Type} [DecidableEq κ] {d : List (κ × α)}
    (hnd : (d.map Prod.fst).Nodup) (key : κ) :
    ((popKey d key).map Prod.fst).Nodup :=
  hnd.sublist ((popKey_sublist d key).map Prod.fst)

theorem getKey_popKey_self_of_nodup {κ α : Type} [DecidableEq κ]
    {d : List (κ × α)} (hnd : (d.map Prod.fst).Nodup) (key : κ) :
    getKey (popKey d key) key = none := by
  induction d with
  | nil => rfl
  | cons hd tl ih =>
      obtain ⟨k, w⟩ := hd
      simp only [List.map_cons, List.nodup_cons] at hnd
      by_cases h : k = key
      · subst h
        simp only [popKey, if_pos rfl]
        exact getKey_eq_none_of_not_mem_keys hnd.1
      · simp only [popKey, if_neg h, getKey_cons, if_neg h]
        exact ih hnd.2

theorem getKey_setdefault_ne {κ α : Type} [DecidableEq κ] (d : List (κ × α))
    (key j : κ) (v : α) (hne : j ≠ key) :
    getKey (setdefault d key v) j = getKey d j := by
  unfold setdefault
  split
  · rfl
  · rw [getKey_append]
    cases h : getKey d j with
    | some w => rfl
    | none => simp [getKey, Ne.symm hne]

theorem getKey_setdefault_self {κ α : Type} [DecidableEq κ] (d : List (κ × α))
    (key : κ) (v : α) :
    getKey (setdefault d key v) key = some ((getKey d key).getD v) := by
  unfold setdefault
  split
  · next h =>
      unfold hasKey at h
      cases hg : getKey d key with
      | some w => simp [hg]
      | none => rw [hg] at h; simp at h
  · next h =>
      unfold hasKey at h
      cases hg : getKey d key with
      | some w => rw [hg] at h; simp at h
      | none =>
          rw [getKey_append, hg]
          simp [getKey]

theorem keys_setKey {κ α : Type} [DecidableEq κ] (d : List (κ × α)) (key : κ) (v : α) :
    (setKey d key v).map Prod.fst =
      if hasKey d key then d.map Prod.fst else d.map Prod.fst ++ [key] := by
  induction d with
  | nil => simp [setKey]
  | cons hd tl ih =>
      obtain ⟨k, w⟩ := hd
      by_cases h : k = key
      · simp [setKey, h]
      · simp only [setKey, if_neg h, List.map_cons, ih, hasKey_cons]
        split <;> simp [h]

theorem getKey_isSome_of_mem_keys {κ α : Type} [DecidableEq κ]
    {d : List (κ × α)} {key : κ} (h : key ∈ d.map Prod.fst) :
    (getKey d key).isSome = true := by
  induction d with
  | nil => simp at h
  | cons hd tl ih =>
      obtain ⟨k, w⟩ := hd
      by_cases hk : k = key
      · simp [hk]
      · simp only [List.map_cons, List.mem_cons] at h
        rcases h with h | h
        · exact absurd h.symm hk
        · simp [hk, ih h]

theorem nodup_keys_setKey {κ α : Type} [DecidableEq κ] {d : List (κ × α)}
    (hnd : (d.map Prod.fst).Nodup) (key : κ) (v : α) :
    ((setKey d key v).map Prod.fst).Nodup := by
  rw [keys_setKey]
  split
  · exact hnd
  · next h =>
      unfold hasKey at h
      refine List.Nodup.append hnd (List.nodup_singleton key) ?_
      intro x hx hx'
      simp only [List.mem_singleton] at hx'
      subst hx'
      exact h (getKey_isSome_of_mem_keys hx)

theorem nodup_keys_deepMergeDict (l : List (String × PVal)) :
    ∀ d : List (String × PVal), (d.map Prod.fst).Nodup →
      ((deepMergeDict d l).map Prod.fst).Nodup := by
  induction l with
  | nil => intro d hnd; simpa [deepMergeDict] using hnd
  | cons hd tl ih =>
      intro d hnd
      obtain ⟨k, v⟩ := hd
      simp only [deepMergeDict]
      exact ih _ (nodup_keys_setKey hnd _ _)

theorem process_init_parameters_def (className : String)
    (defaults given : List (String × PVal)) :
    (Process.init className defaults given).parameters =
      setdefault
        (popKey (popKey (deepMergeDict defaults given) "_schema") "_parallel")
        "time_step" DEFAULT_TIME_STEP := rfl

theorem process_init_schema_override_def (className : String)
    (defaults given : List (String × PVal)) :
    (Process.init className defaults given).schema_override =
      (getKey (deepMergeDict defaults given) "_schema").getD (.dict []) := rfl

theorem process_init_parallel_def (className : String)
    (defaults given : List (String × PVal)) :
    (Process.init className defaults given).parallel =
      (getKey (popKey (deepMergeDict defaults given) "_schema")
        "_parallel").getD (.bool false) := rfl

/-- C4 (counterexample to the claim as stated): constructing a process
with empty class defaults and empty given parameters yields
`parameters == {'time_step': 1.0}`, while the deep merge of defaults and
overrides (with nothing to pop) is `{}` — `__init__` additionally inserts
the `time_step` default, which the claim's characterisation of
`parameters` omits. -/
theorem process_init_not_only_merge :
    (Process.init "P" [] []).parameters = [("time_step", PVal.num 1)] ∧
    deepMergeDict [] [] = [] ∧
    (Process.init "P" [] []).parameters ≠ deepMergeDict [] [] :=
  ⟨rfl, rfl, fun h => List.noConfusion h⟩

/-- C4 (amended): for class defaults with duplicate-free keys, the
constructed instance's `parameters` agrees with the deep merge of the
class defaults and the given parameters (override wins at every depth) on
every key other than `_schema`, `_parallel` and `time_step`; `_schema` and
`_parallel` are removed from `parameters` and stored as the
schema-override set (default `{}`) and the isolation flag (default
`False`); and `time_step` additionally defaults to `DEFAULT_TIME_STEP`
when the merge does not set it. -/
theorem process_init_spec (className : String)
    (defaults given : List (String × PVal))
    (hnd : (defaults.map Prod.fst).Nodup) :
    (∀ k, k ≠ "_schema" → k ≠ "_parallel" → k ≠ "time_step" →
      getKey (Process.init className defaults given).parameters k =
        getKey (deepMergeDict defaults given) k) ∧
    getKey (Process.init className defaults given).parameters "_schema" = none ∧
    getKey (Process.init className defaults given).parameters "_parallel" = none ∧
    getKey (Process.init className defaults given).parameters "time_step" =
      some ((getKey (deepMergeDict defaults given) "time_step").getD
        DEFAULT_TIME_STEP) ∧
    (Process.init className defaults given).schema_override =
      (getKey (deepMergeDict defaults given) "_schema").getD (.dict []) ∧
    (Process.init className defaults given).parallel =
      (getKey (deepMergeDict defaults given) "_parallel").getD (.bool false) := by
  have hmnd : ((deepMergeDict defaults given).map Prod.fst).Nodup :=
    nodup_keys_deepMergeDict given defaults hnd
  refine ⟨?_, ?_, ?_, ?_, ?_, ?_⟩
  · intro k hks hkp hkt
    rw [process_init_parameters_def, getKey_setdefault_ne _ _ _ _ hkt,
      getKey_popKey_ne _ _ _ hkp, getKey_popKey_ne _ _ _ hks]
  · rw [process_init_parameters_def, getKey_setdefault_ne _ _ _ _ (by decide),
      getKey_popKey_ne _ _ _ (by decide),
      getKey_popKey_self_of_nodup hmnd]
  · rw [process_init_parameters_def, getKey_setdefault_ne _ _ _ _ (by decide),
      getKey_popKey_self_of_nodup (nodup_keys_popKey hmnd _)]
  · rw [process_init_parameters_def, getKey_setdefault_self,
      getKey_popKey_ne _ _ _ (by decide), getKey_popKey_ne _ _ _ (by decide)]
  · exact process_init_schema_override_def className defaults given
  · rw [process_init_parallel_def, getKey_popKey_ne _ _ _ (by decide)]

/-- Witness for `process_init_spec` at concrete defaults
`{'a': 1}` and given parameters `{'_parallel': True, 'b': 2}`. -/
theorem process_init_spec_witness :
    (([("a", PVal.num 1)].map Prod.fst).Nodup) ∧
    ((∀ k, k ≠ "_schema" → k ≠ "_parallel" → k ≠ "time_step" →
      getKey (Process.init "P" [("a", PVal.num 1)]
          [("_parallel", PVal.bool true), ("b", PVal.num 2)]).parameters k =
        getKey (deepMergeDict [("a", PVal.num 1)]
          [("_parallel", PVal.bool true), ("b", PVal.num 2)]) k) ∧
    getKey (Process.init "P" [("a", PVal.num 1)]
        [("_parallel", PVal.bool true), ("b", PVal.num 2)]).parameters
      "_schema" = none ∧
    getKey (Process.init "P" [("a", PVal.num 1)]
        [("_parallel", PVal.bool true), ("b", PVal.num 2)]).parameters
      "_parallel" = none ∧
    getKey (Process.init "P" [("a", PVal.num 1)]
        [("_parallel", PVal.bool true), ("b", PVal.num 2)]).parameters
      "time_step" =
      some ((getKey (deepMergeDict [("a", PVal.num 1)]
        [("_parallel", PVal.bool true), ("b", PVal.num 2)])
          "time_step").getD DEFAULT_TIME_STEP) ∧
    (Process.init "P" [("a", PVal.num 1)]
        [("_parallel", PVal.bool true), ("b", PVal.num 2)]).schema_override =
      (getKey (deepMergeDict [("a", PVal.num 1)]
        [("_parallel", PVal.bool true), ("b", PVal.num 2)])
          "_schema").getD (.dict []) ∧
    (Process.init "P" [("a", PVal.num 1)]
        [("_parallel", PVal.bool true), ("b", PVal.num 2)]).parallel =
      (getKey (deepMergeDict [("a", PVal.num 1)]
        [("_parallel", PVal.bool true), ("b", PVal.num 2)])
          "_parallel").getD (.bool false)) :=
  ⟨by decide, process_init_spec "P" [("a", PVal.num 1)]
    [("_parallel", PVal.bool true), ("b", PVal.num 2)] (by decide)⟩

/-- C6: the default `calculate_timestep` is independent of its states
argument — any two port-state inputs (including `None`) give the same
result — and that result is the configured `parameters['time_step']`,
which is `DEFAULT_TIME_STEP = 1.0` when the merged parameters do not set
`time_step`. -/
theorem calculate_timestep_state_independent (className : String)
    (defaults given : List (String × PVal)) (s1 s2 : Option PVal) :
    Process.calculate_timestep (Process.init className defaults given) s1 =
      Process.calculate_timestep (Process.init className defaults given) s2 ∧
    Process.calculate_timestep (Process.init className defaults given) s1 =
      some ((getKey (deepMergeDict defaults given) "time_step").getD
        DEFAULT_TIME_STEP) := by
  refine ⟨rfl, ?_⟩
  unfold Process.calculate_timestep
  rw [process_init_parameters_def, getKey_setdefault_self,
    getKey_popKey_ne _ _ _ (by decide), getKey_popKey_ne _ _ _ (by decide)]

/-! ### Serialization (`serialize.py`) -/

/-- Errors raised on the serialization path (`TypeError` with the two
messages of `make_default`, and orjson's failure when `default` recursion
exceeds its limit). -/
inductive SerializeError : Type where
  | multipleSerializers : SerializeError
  | noSerializerFound : SerializeError
  | defaultDepthExceeded : SerializeError
  deriving DecidableEq

/-- Data on the orjson serialization path: natively supported values plus
opaque objects (`ext`) of non-native type. -/
inductive JVal (Obj : Type) : Type where
  | num : ℚ → JVal Obj
  | str : String → JVal Obj
  | bool : Bool → JVal Obj
  | null : JVal Obj
  | arr : List (JVal Obj) → JVal Obj
  | obj : List (String × JVal Obj) → JVal Obj
  | ext : Obj → JVal Obj

/-- BSON-compatible output of serialization: no opaque objects remain. -/
inductive PJson : Type where
  | num : ℚ → PJson
  | str : String → PJson
  | bool : Bool → PJson
  | null : PJson
  | arr : List PJson → PJson
  | obj : List (String × PJson) → PJson

/-- A registered `Serializer`: its `python_type` (as a type name) and its
`serialize` routine, which may return data still containing non-native
objects. -/
structure SerializerSpec (Obj : Type) : Type where
  python_type : String
  serialize : Obj → JVal Obj

/-- Modelled from the spec: `vivarium.core.registry.serializer_registry`
is not part of the sampled repository section.  Per the spec's
serialization boundary it is "a serializer registry keyed by runtime
type": `access` (here `getKey entries`) looks a name up, `list` enumerates
the registered names in order. -/
structure SerializerRegistry (Obj : Type) : Type where
  entries : List (String × SerializerSpec Obj)

/-- `make_default` (serialize.py lines 223–256): the fallback orjson calls
on a value of unsupported type.  First try the registry under the exact
type name `str(type(obj))`; otherwise collect every registered serializer
whose `python_type` the object is an instance of: several matches raise
`TypeError` (multiple serializers), none raises `TypeError` ('No
serializer found'), exactly one is used.  `typeStr obj` models
`str(type(obj))` and `isInst obj t` models `isinstance(obj, t)`. -/
def make_default {Obj : Type} (reg : SerializerRegistry Obj)
    (typeStr : Obj → String) (isInst : Obj → String → Bool) (obj : Obj) :
    Except SerializeError (JVal Obj) :=
  match getKey reg.entries (typeStr obj) with
  | some serializer => .ok (serializer.serialize obj)
  | none =>
      let compatible := reg.entries.filter fun e => isInst obj e.2.python_type
      if 1 < compatible.length then .error .multipleSerializers
      else
        match compatible with
        | [] => .error .noSerializerFound
        | s :: _ => .ok (s.2.serialize obj)

mutual

/-- The orjson serialization pass of `serialize_value` (serialize.py
lines 24–44): native data passes through, any other object goes through
the `default` fallback, whose result is serialized again — `default` may
be applied up to `fuel` more times before orjson gives up. -/
def serializeJVal {Obj : Type}
    (default : Obj → Except SerializeError (JVal Obj)) :
    Nat → JVal Obj → Except SerializeError PJson
  | _, .num q => .ok (.num q)
  | _, .str s => .ok (.str s)
  | _, .bool b => .ok (.bool b)
  | _, .null => .ok .null
  | fuel, .arr l =>
      match serializeJList default fuel l with
      | .ok l' => .ok (.arr l')
      | .error e => .error e
  | fuel, .obj l =>
      match serializeJObj default fuel l with
      | .ok l' => .ok (.obj l')
      | .error e => .error e
  | fuel, .ext o =>
      match fuel with
      | 0 => .error .defaultDepthExceeded
      | n + 1 =>
          match default o with
          | .ok v => serializeJVal default n v
          | .error e => .error e
termination_by fuel v => (fuel, sizeOf v)

/-- Serialize the elements of a list (orjson array). -/
def serializeJList {Obj : Type}
    (default : Obj → Except SerializeError (JVal Obj)) :
    Nat → List (JVal Obj) → Except SerializeError (List PJson)
  | _, [] => .ok []
  | fuel, v :: rest =>
      match serializeJVal default fuel v with
      | .ok v' =>
          match serializeJList default fuel rest with
          | .ok rest' => .ok (v' :: rest')
          | .error e => .error e
      | .error e => .error e
termination_by fuel l => (fuel, sizeOf l)

/-- Serialize the entries of a dictionary (orjson object). -/
def serializeJObj {Obj : Type}
    (default : Obj → Except SerializeError (JVal Obj)) :
    Nat → List (String × JVal Obj) → Except SerializeError (List (String × PJson))
  | _, [] => .ok []
  | fuel, (k, v) :: rest =>
      match serializeJVal default fuel v with
      | .ok v' =>
          match serializeJObj default fuel rest with
          | .ok rest' => .ok ((k, v') :: rest')
          | .error e => .error e
      | .error e => .error e
termination_by fuel l => (fuel, sizeOf l)

end

/-- `serialize_value` (serialize.py lines 24–44): run the orjson pass with
`make_default` as fallback; orjson allows the fallback to be applied up to
254 times along a chain. -/
def serialize_value {Obj : Type} (reg : SerializerRegistry Obj)
    (typeStr : Obj → String) (isInst : Obj → String → Bool)
    (v : JVal Obj) : Except SerializeError PJson :=
  serializeJVal (make_default reg typeStr isInst) 254 v

/-- C7: on a value whose type is not natively supported (an `ext` object)
and not registered under its exact type name, `serialize_value` succeeds
only when the registry resolves exactly one matching serializer: no match
raises `TypeError` ('No serializer found'), several matches raise
`TypeError` (multiple serializers) rather than picking one silently, and a
unique match hands the object to that serializer. -/
theorem serialize_value_requires_resolution {Obj : Type}
    (reg : SerializerRegistry Obj) (typeStr : Obj → String)
    (isInst : Obj → String → Bool) (obj : Obj)
    (hexact : getKey reg.entries (typeStr obj) = none) :
    serialize_value reg typeStr isInst (.ext obj) =
      match reg.entries.filter (fun e => isInst obj e.2.python_type) with
      | [] => .error .noSerializerFound
      | [s] => serializeJVal (make_default reg typeStr isInst) 253
          (s.2.serialize obj)
      | _ :: _ :: _ => .error .multipleSerializers := by
  unfold serialize_value
  rw [show (254 : Nat) = 253 + 1 from rfl]
  simp only [serializeJVal]
  unfold make_default
  rw [hexact]
  cases hf : reg.entries.filter fun e => isInst obj e.2.python_type with
  | nil => simp
  | cons s rest =>
      cases rest with
      | nil => simp
      | cons s' rest' => simp

/-- Witness for `serialize_value_requires_resolution`: a registry with two
serializers both matching the object (and neither registered under the
object's exact type name) rejects the value with the
multiple-serializers `TypeError`. -/
theorem serialize_value_requires_resolution_witness :
    getKey ((SerializerRegistry.mk
      [("s1", ⟨"base", fun _ => .null⟩), ("s2", ⟨"base", fun _ => .null⟩)] :
      SerializerRegistry Bool)).entries
      ((fun _ => "bool") true) = none ∧
    serialize_value ((SerializerRegistry.mk
        [("s1", ⟨"base", fun _ => .null⟩), ("s2", ⟨"base", fun _ => .null⟩)] :
        SerializerRegistry Bool))
        (fun _ => "bool") (fun _ _ => true) (.ext true) =
      match ((SerializerRegistry.mk
          [("s1", ⟨"base", fun _ => .null⟩),
           ("s2", ⟨"base", fun _ => .null⟩)] :
          SerializerRegistry Bool)).entries.filter
          (fun e => (fun _ _ => true) true e.2.python_type) with
      | [] => .error .noSerializerFound
      | [s] => serializeJVal (make_default ((SerializerRegistry.mk
          [("s1", ⟨"base", fun _ => .null⟩), ("s2", ⟨"base", fun _ => .null⟩)] :
          SerializerRegistry Bool))
          (fun _ => "bool") (fun _ _ => true)) 253 (s.2.serialize true)
      | _ :: _ :: _ => .error .multipleSerializers :=
  ⟨rfl, serialize_value_requires_resolution _ _ _ _ rfl⟩

theorem setKey_eq_append_of_getKey_none {κ α : Type} [DecidableEq κ]
    {d : List (κ × α)} {key : κ} (h : getKey d key = none) (v : α) :
    setKey d key v = d ++ [(key, v)] := by
  induction d with
  | nil => rfl
  | cons hd tl ih =>
      obtain ⟨k, w⟩ := hd
      rw [getKey_cons] at h
      split at h
      · exact absurd h (by simp)
      · next hk => simp [setKey, hk, ih h]

theorem not_mem_keys_of_getKey_eq_none {κ α : Type} [DecidableEq κ]
    {d : List (κ × α)} {key : κ} (h : getKey d key = none) :
    key ∉ d.map Prod.fst := by
  intro hmem
  have := getKey_isSome_of_mem_keys hmem
  rw [h] at this
  simp at this

theorem exists_getKey_iff_ne_nil {κ α : Type} [DecidableEq κ]
    (l : List (κ × α)) : (∃ k v, getKey l k = some v) ↔ l ≠ [] := by
  constructor
  · rintro ⟨k, v, hk⟩ rfl
    simp at hk
  · intro h
    cases l with
    | nil => exact absurd rfl h
    | cons hd tl =>
        obtain ⟨k, v⟩ := hd
        exact ⟨k, v, by simp⟩

theorem keys_varsDefaults_sublist (vars : List (String × PVal)) :
    List.Sublist ((varsDefaults vars).map Prod.fst) (vars.map Prod.fst) := by
  induction vars with
  | nil => exact List.Sublist.refl _
  | cons kv tl ih =>
      obtain ⟨key, val⟩ := kv
      cases val with
      | dict flags =>
          cases hdv : getKey flags "_default" with
          | some dv =>
              have he : varsDefaults ((key, PVal.dict flags) :: tl) =
                  (key, dv) :: varsDefaults tl := by
                simp [varsDefaults, hdv]
              rw [he]
              simpa using List.Sublist.cons₂ key ih
          | none =>
              have he : varsDefaults ((key, PVal.dict flags) :: tl) =
                  varsDefaults tl := by
                simp [varsDefaults, hdv]
              rw [he]
              exact List.Sublist.cons key ih
      | num x => exact List.Sublist.cons key ih
      | str x => exact List.Sublist.cons key ih
      | bool x => exact List.Sublist.cons key ih
      | pynone => exact List.Sublist.cons key ih

theorem getKey_varsDefaults_iff {vars : List (String × PVal)}
    (hsh : varsShaped vars = true) (hnd : (vars.map Prod.fst).Nodup)
    (var : String) (dv : PVal) :
    getKey (varsDefaults vars) var = some dv ↔
      ∃ flags, getKey vars var = some (.dict flags) ∧
        getKey flags "_default" = some dv := by
  induction vars with
  | nil => simp [varsDefaults]
  | cons kv tl ih =>
      obtain ⟨key, val⟩ := kv
      simp only [varsShaped, List.all_cons, Bool.and_eq_true] at hsh
      simp only [List.map_cons, List.nodup_cons] at hnd
      cases val with
      | dict flags =>
          have ihtl := ih hsh.2 hnd.2
          by_cases hkv : key = var
          · subst hkv
            cases hdv : getKey flags "_default" with
            | some d0 =>
                simp only [varsDefaults, List.filterMap_cons, hdv, Option.map_some]
                simp [getKey_cons, hdv, eq_comm]
            | none =>
                have hnone : getKey (varsDefaults tl) key = none :=
                  getKey_eq_none_of_not_mem_keys fun hmem =>
                    hnd.1 ((keys_varsDefaults_sublist tl).mem hmem)
                simp only [varsDefaults, List.filterMap_cons, hdv, Option.map_none]
                simp only [varsDefaults] at hnone
                simp [getKey_cons, hnone, hdv]
          · cases hdv : getKey flags "_default" with
            | some d0 =>
                simp only [varsDefaults, List.filterMap_cons, hdv, Option.map_some]
                simp only [varsDefaults] at ihtl
                simp [getKey_cons, hkv, ihtl]
            | none =>
                simp only [varsDefaults, List.filterMap_cons, hdv, Option.map_none]
                simp only [varsDefaults] at ihtl
                simp [getKey_cons, hkv, ihtl]
      | num x => simp [varsShaped] at hsh
      | str x => simp [varsShaped] at hsh
      | bool x => simp [varsShaped] at hsh
      | pynone => simp [varsShaped] at hsh

theorem defaultStateVars_cons_some {flags : List (String × PVal)} {dv : PVal}
    (port key : String) (vars : List (String × PVal))
    (state : List (String × PVal)) (hdv : getKey flags "_default" = some dv) :
    defaultStateVars port ((key, .dict flags) :: vars) state =
      defaultStateVars port vars
        (setKey state port (.dict (setKey
          (match getKey state port with
           | some (.dict d) => d
           | _ => []) key dv))) := by
  simp only [defaultStateVars, hdv]

theorem defaultStateVars_cons_none {flags : List (String × PVal)}
    (port key : String) (vars : List (String × PVal))
    (state : List (String × PVal)) (hdv : getKey flags "_default" = none) :
    defaultStateVars port ((key, .dict flags) :: vars) state =
      defaultStateVars port vars state := by
  simp only [defaultStateVars, hdv]

/-- The value a port holds in the state being built: the fallback when no
variable contributed a default yet, else the accumulated dictionary. -/
def dictIfNonempty (fallback : Option PVal) : List (String × PVal) → Option PVal
  | [] => fallback
  | l => some (.dict l)

@[simp] theorem dictIfNonempty_nil (f : Option PVal) :
    dictIfNonempty f [] = f := rfl

@[simp] theorem dictIfNonempty_cons (f : Option PVal) (x : String × PVal)
    (xs : List (String × PVal)) :
    dictIfNonempty f (x :: xs) = some (.dict (x :: xs)) := rfl

theorem dictIfNonempty_of_ne_nil (f : Option PVal)
    {l : List (String × PVal)} (h : l ≠ []) :
    dictIfNonempty f l = some (.dict l) := by
  cases l with
  | nil => exact absurd rfl h
  | cons x xs => rfl

theorem defaultStateVars_spec (vars : List (String × PVal)) :
    ∀ (port : String) (state acc : List (String × PVal)),
      varsShaped vars = true →
      (acc.map Prod.fst ++ vars.map Prod.fst).Nodup →
      ((getKey state port = none ∧ acc = []) ∨
        getKey state port = some (.dict acc)) →
      ∃ state', defaultStateVars port vars state = some state' ∧
        (∀ q, q ≠ port → getKey state' q = getKey state q) ∧
        getKey state' port =
          dictIfNonempty (getKey state port) (acc ++ varsDefaults vars) := by
  induction vars with
  | nil =>
      intro port state acc hsh hnd hst
      refine ⟨state, rfl, fun q _ => rfl, ?_⟩
      rcases hst with ⟨hnone, rfl⟩ | hdict
      · simp [varsDefaults, hnone]
      · cases acc with
        | nil => simp [varsDefaults, hdict]
        | cons a as => simp [varsDefaults, hdict]
  | cons kv tl ih =>
      intro port state acc hsh hnd hst
      obtain ⟨key, val⟩ := kv
      simp only [varsShaped, List.all_cons, Bool.and_eq_true] at hsh
      cases val with
      | num x => simp at hsh
      | str x => simp at hsh
      | bool x => simp at hsh
      | pynone => simp at hsh
      | dict flags =>
          have hshtl : varsShaped tl = true := hsh.2
          have hcur :
              (match getKey state port with
               | some (.dict d) => d
               | _ => []) = acc := by
            rcases hst with ⟨hnone, rfl⟩ | hdict
            · rw [hnone]
            · rw [hdict]
          have hkeyacc : getKey acc key = none := by
            apply getKey_eq_none_of_not_mem_keys
            have hdisj := (List.nodup_append.mp hnd).2.2
            intro hmem
            exact hdisj hmem (by simp)
          cases hdv : getKey flags "_default" with
          | some dv =>
              rw [defaultStateVars_cons_some port key tl state hdv, hcur,
                setKey_eq_append_of_getKey_none hkeyacc]
              have hnd' : ((acc ++ [(key, dv)]).map Prod.fst ++
                  tl.map Prod.fst).Nodup := by
                simpa [List.append_assoc] using hnd
              obtain ⟨state', hrun, hq, hport⟩ :=
                ih port (setKey state port (.dict (acc ++ [(key, dv)])))
                  (acc ++ [(key, dv)]) hshtl hnd'
                  (Or.inr (getKey_setKey_self state port _))
              refine ⟨state', hrun, ?_, ?_⟩
              · intro q hqp
                rw [hq q hqp, getKey_setKey_ne state port q _ hqp]
              · have hvd : varsDefaults ((key, PVal.dict flags) :: tl) =
                    (key, dv) :: varsDefaults tl := by
                  simp [varsDefaults, hdv]
                have hassoc : acc ++ [(key, dv)] ++ varsDefaults tl =
                    acc ++ (key, dv) :: varsDefaults tl := by
                  simp
                rw [hport, hvd, hassoc,
                  dictIfNonempty_of_ne_nil _ (by simp),
                  dictIfNonempty_of_ne_nil _ (by simp)]
          | none =>
              rw [defaultStateVars_cons_none port key tl state hdv]
              have hnd' : (acc.map Prod.fst ++ tl.map Prod.fst).Nodup := by
                refine List.Nodup.sublist ?_ hnd
                refine List.Sublist.append_left ?_ _
                exact List.sublist_cons_self _ _
              obtain ⟨state', hrun, hq, hport⟩ :=
                ih port state acc hshtl hnd' hst
              refine ⟨state', hrun, hq, ?_⟩
              have hvd : varsDefaults ((key, PVal.dict flags) :: tl) =
                  varsDefaults tl := by
                simp [varsDefaults, hdv]
              rw [hport, hvd]

theorem defaultStatePorts_spec (ports : List (String × PVal)) :
    ∀ state : List (String × PVal),
      (ports.map Prod.fst).Nodup →
      ports.all portShaped = true →
      (∀ key ∈ ports.map Prod.fst, getKey state key = none) →
      ∃ st, defaultStatePorts ports state = some st ∧
        (∀ q, q ∉ ports.map Prod.fst → getKey st q = getKey state q) ∧
        (∀ port vars, getKey ports port = some (.dict vars) →
          getKey st port = dictIfNonempty none (varsDefaults vars)) := by
  induction ports with
  | nil =>
      intro state hnd hsh hstate
      exact ⟨state, rfl, fun q _ => rfl, fun port vars h => by simp at h⟩
  | cons pv tl ih =>
      intro state hnd hsh hstate
      obtain ⟨port₀, val⟩ := pv
      simp only [List.all_cons, Bool.and_eq_true] at hsh
      cases val with
      | num x => simp [portShaped] at hsh
      | str x => simp [portShaped] at hsh
      | bool x => simp [portShaped] at hsh
      | pynone => simp [portShaped] at hsh
      | dict vars₀ =>
          simp only [portShaped, Bool.and_eq_true, decide_eq_true_eq] at hsh
          obtain ⟨⟨hvnd, hvsh⟩, hshtl⟩ := hsh
          simp only [List.map_cons, List.nodup_cons] at hnd
          have hst0 : getKey state port₀ = none :=
            hstate port₀ (by simp)
          obtain ⟨state₁, hrun1, hq1, hport1⟩ :=
            defaultStateVars_spec vars₀ port₀ state [] hvsh (by simpa using hvnd)
              (Or.inl ⟨hst0, rfl⟩)
          simp only [List.nil_append] at hport1
          have hstate1 : ∀ key ∈ tl.map Prod.fst, getKey state₁ key = none := by
            intro key hkey
            have hne : key ≠ port₀ := fun h => hnd.1 (h ▸ hkey)
            rw [hq1 key hne]
            exact hstate key (by simp [hkey])
          obtain ⟨st, hrun2, hq2, hport2⟩ := ih state₁ hnd.2 hshtl hstate1
          refine ⟨st, ?_, ?_, ?_⟩
          · simp only [defaultStatePorts, hrun1]
            exact hrun2
          · intro q hq
            simp only [List.map_cons, List.mem_cons] at hq
            push_neg at hq
            rw [hq2 q hq.2, hq1 q (Ne.symm (Ne.intro fun h => hq.1 h.symm))]
          · intro port₂ vars₂ hp
            rw [getKey_cons] at hp
            split at hp
            · next hpe =>
                obtain rfl := hpe
                have hv : vars₂ = vars₀ := by
                  have := hp
                  injection this with h1
                  cases h1
                  rfl
                subst hv
                have hnot : port₀ ∉ tl.map Prod.fst := hnd.1
                rw [hq2 port₀ hnot, hport1, hst0]
            · next hpe =>
                exact hport2 port₂ vars₂ hp

/-- C10: for every process whose combined schema (`ports_schema` deep-merged
with the schema-override set) has the two-level port/variable shape,
`default_state()` succeeds, contains a variable under a port iff that
variable's entry in the combined schema has a `_default` key, assigns it
exactly that `_default` value, and omits entirely every port none of whose
variables declares `_default`. -/
theorem default_state_spec (ports_schema : PVal) (p : Process)
    (h : schemaWellShaped (Process.get_schema ports_schema p none) = true) :
    ∃ st, Process.default_state ports_schema p = some st ∧
      (∀ port var dv,
        lookup2 (.dict st) port var = some dv ↔
        (∃ flags, lookup2 (Process.get_schema ports_schema p none) port var =
          some (.dict flags) ∧ getKey flags "_default" = some dv)) ∧
      (∀ port, hasKey st port = true ↔
        (∃ var flags dv,
          lookup2 (Process.get_schema ports_schema p none) port var =
            some (.dict flags) ∧ getKey flags "_default" = some dv)) := by
  cases hS : Process.get_schema ports_schema p none with
  | num x => rw [hS] at h; simp [schemaWellShaped] at h
  | str x => rw [hS] at h; simp [schemaWellShaped] at h
  | bool x => rw [hS] at h; simp [schemaWellShaped] at h
  | pynone => rw [hS] at h; simp [schemaWellShaped] at h
  | dict ports =>
      rw [hS] at h
      simp only [schemaWellShaped, Bool.and_eq_true, decide_eq_true_eq] at h
      obtain ⟨hnd, hsh⟩ := h
      obtain ⟨st, hrun, hq, hport⟩ :=
        defaultStatePorts_spec ports [] hnd hsh (fun key _ => rfl)
      refine ⟨st, ?_, ?_, ?_⟩
      · unfold Process.default_state
        rw [hS]
        exact hrun
      · intro port var dv
        cases hp : getKey ports port with
        | none =>
            have hnotmem := not_mem_keys_of_getKey_eq_none hp
            have : getKey st port = none := by rw [hq port hnotmem]; rfl
            simp [lookup2, hp, this]
        | some val =>
            have hmem := getKey_mem hp
            have hpsh : portShaped (port, val) = true := by
              have := List.all_eq_true.mp hsh _ hmem
              exact this
            cases val with
            | dict vars =>
                simp only [portShaped, Bool.and_eq_true, decide_eq_true_eq] at hpsh
                obtain ⟨hvnd, hvsh⟩ := hpsh
                have hlhs : lookup2 (.dict st) port var =
                    getKey (varsDefaults vars) var := by
                  simp only [lookup2, hport port vars hp]
                  cases hvd : varsDefaults vars with
                  | nil => simp
                  | cons x xs => simp
                rw [hlhs]
                simp only [lookup2, hp]
                exact getKey_varsDefaults_iff hvsh hvnd var dv
            | num x => simp [portShaped] at hpsh
            | str x => simp [portShaped] at hpsh
            | bool x => simp [portShaped] at hpsh
            | pynone => simp [portShaped] at hpsh
      · intro port
        cases hp : getKey ports port with
        | none =>
            have hnotmem := not_mem_keys_of_getKey_eq_none hp
            have hnone : getKey st port = none := by rw [hq port hnotmem]; rfl
            simp [hasKey, hnone, lookup2, hp]
        | some val =>
            have hmem := getKey_mem hp
            have hpsh : portShaped (port, val) = true :=
              List.all_eq_true.mp hsh _ hmem
            cases val with
            | dict vars =>
                simp only [portShaped, Bool.and_eq_true, decide_eq_true_eq] at hpsh
                obtain ⟨hvnd, hvsh⟩ := hpsh
                have hiff := fun var dv => getKey_varsDefaults_iff hvsh hvnd var dv
                constructor
                · intro hk
                  unfold hasKey at hk
                  rw [hport port vars hp] at hk
                  cases hvd : varsDefaults vars with
                  | nil => rw [hvd] at hk; simp at hk
                  | cons x xs =>
                      have hx : getKey (varsDefaults vars) x.1 = some x.2 := by
                        rw [hvd]
                        cases x
                        simp
                      obtain ⟨flags, hf1, hf2⟩ := (hiff x.1 x.2).mp hx
                      simp only [lookup2, hp] at hf1 ⊢
                      exact ⟨x.1, flags, x.2, hf1, hf2⟩
                · rintro ⟨var, flags, dv, hf1, hf2⟩
                  simp only [lookup2, hp] at hf1
                  have := (hiff var dv).mpr ⟨flags, hf1, hf2⟩
                  unfold hasKey
                  rw [hport port vars hp]
                  cases hvd : varsDefaults vars with
                  | nil => rw [hvd] at this; simp at this
                  | cons x xs => simp
            | num x => simp [portShaped] at hpsh
            | str x => simp [portShaped] at hpsh
            | bool x => simp [portShaped] at hpsh
            | pynone => simp [portShaped] at hpsh

/-- Witness for `default_state_spec` on a process with no overrides and a
two-port schema in which only `v1` declares `_default`. -/
theorem default_state_spec_witness :
    schemaWellShaped (Process.get_schema
      (.dict [("port1", .dict [("v1", .dict [("_default", PVal.num 5)]),
                               ("v2", .dict [("_updater", PVal.str "set")])]),
              ("port2", .dict [("v3", .dict [])])])
      (Process.init "P" [] []) none) = true ∧
    (∃ st, Process.default_state
        (.dict [("port1", .dict [("v1", .dict [("_default", PVal.num 5)]),
                                 ("v2", .dict [("_updater", PVal.str "set")])]),
                ("port2", .dict [("v3", .dict [])])])
        (Process.init "P" [] []) = some st ∧
      (∀ port var dv,
        lookup2 (.dict st) port var = some dv ↔
        (∃ flags, lookup2 (Process.get_schema
            (.dict [("port1", .dict [("v1", .dict [("_default", PVal.num 5)]),
                                     ("v2", .dict [("_updater", PVal.str "set")])]),
                    ("port2", .dict [("v3", .dict [])])])
            (Process.init "P" [] []) none) port var =
          some (.dict flags) ∧ getKey flags "_default" = some dv)) ∧
      (∀ port, hasKey st port = true ↔
        (∃ var flags dv,
          lookup2 (Process.get_schema
            (.dict [("port1", .dict [("v1", .dict [("_default", PVal.num 5)]),
                                     ("v2", .dict [("_updater", PVal.str "set")])]),
                    ("port2", .dict [("v3", .dict [])])])
            (Process.init "P" [] []) none) port var =
            some (.dict flags) ∧ getKey flags "_default" = some dv))) :=
  ⟨rfl, default_state_spec _ _ rfl⟩

@[simp] theorem lookupProc_nil (procs : List (String × ProcTree)) :
    lookupProc procs [] = none := rfl

@[simp] theorem lookupProc_single (procs : List (String × ProcTree)) (k : String) :
    lookupProc procs [k] = getKey procs k := rfl

@[simp] theorem lookupProc_cons₂ (procs : List (String × ProcTree))
    (k k₂ : String) (rest : List String) :
    lookupProc procs (k :: k₂ :: rest) =
      match getKey procs k with
      | some (.branch sub) => lookupProc sub (k₂ :: rest)
      | _ => none := rfl

@[simp] theorem lookupOverride_nil_path (ov : List (String × PVal)) :
    lookupOverride ov [] = none := rfl

@[simp] theorem lookupOverride_single (ov : List (String × PVal)) (k : String) :
    lookupOverride ov [k] = getKey ov k := rfl

@[simp] theorem lookupOverride_cons₂ (ov : List (String × PVal))
    (k k₂ : String) (rest : List String) :
    lookupOverride ov (k :: k₂ :: rest) =
      match getKey ov k with
      | some (.dict sub) => lookupOverride sub (k₂ :: rest)
      | _ => none := rfl

theorem lookupOverride_nil (path : List String) :
    lookupOverride [] path = none := by
  cases path with
  | nil => rfl
  | cons k rest => cases rest <;> simp

theorem overrideSchemas_cons_leaf {procs : List (String × ProcTree)}
    {key : String} {p : Process} (override : PVal)
    (rest : List (String × PVal)) (hkp : getKey procs key = some (.leaf p)) :
    overrideSchemas ((key, override) :: rest) procs =
      overrideSchemas rest
        (setKey procs key (.leaf (p.merge_overrides override))) := by
  simp only [overrideSchemas, hkp]

theorem overrideSchemas_cons_branch {procs : List (String × ProcTree)}
    {key : String} {sub sub' : List (String × ProcTree)}
    {od : List (String × PVal)} (rest : List (String × PVal))
    (hkp : getKey procs key = some (.branch sub))
    (hin : overrideSchemas od sub = some sub') :
    overrideSchemas ((key, .dict od) :: rest) procs =
      overrideSchemas rest (setKey procs key (.branch sub')) := by
  simp only [overrideSchemas, hkp, hin]

@[simp] theorem alignedOv_nil (procs : List (String × ProcTree)) :
    alignedOv [] procs = true := rfl

@[simp] theorem alignedOv_cons (key : String) (override : PVal)
    (rest : List (String × PVal)) (procs : List (String × ProcTree)) :
    alignedOv ((key, override) :: rest) procs =
      ((match getKey procs key with
        | some t => alignedVal override t
        | none => false) && alignedOv rest procs) := rfl

theorem alignedOv_setKey_ne {ov : List (String × PVal)}
    (procs : List (String × ProcTree)) {key : String} (t : ProcTree)
    (h : key ∉ ov.map Prod.fst) :
    alignedOv ov (setKey procs key t) = alignedOv ov procs := by
  induction ov with
  | nil => rfl
  | cons hd tl ih =>
      obtain ⟨k, o⟩ := hd
      simp only [List.map_cons, List.mem_cons] at h
      push_neg at h
      rw [alignedOv_cons, alignedOv_cons,
        getKey_setKey_ne procs key k t (Ne.symm h.1), ih h.2]

theorem hasKey_eq_false_iff {κ α : Type} [DecidableEq κ]
    (d : List (κ × α)) (key : κ) :
    hasKey d key = false ↔ getKey d key = none := by
  unfold hasKey
  cases getKey d key <;> simp

theorem hasKey_iff_mem_keys {κ α : Type} [DecidableEq κ]
    (d : List (κ × α)) (key : κ) :
    hasKey d key = true ↔ key ∈ d.map Prod.fst := by
  constructor
  · intro h
    unfold hasKey at h
    cases hg : getKey d key with
    | none => rw [hg] at h; simp at h
    | some v => exact List.mem_map.mpr ⟨(key, v), getKey_mem hg, rfl⟩
  · exact getKey_isSome_of_mem_keys

theorem keysNodup_iff {κ α : Type} [DecidableEq κ] (l : List (κ × α)) :
    keysNodup l = true ↔ (l.map Prod.fst).Nodup := by
  induction l with
  | nil => simp [keysNodup]
  | cons hd tl ih =>
      obtain ⟨k, v⟩ := hd
      simp only [keysNodup, Bool.and_eq_true, Bool.not_eq_true',
        List.map_cons, List.nodup_cons]
      constructor
      · rintro ⟨h1, h2⟩
        exact ⟨not_mem_keys_of_getKey_eq_none ((hasKey_eq_false_iff tl k).mp h1),
          ih.mp h2⟩
      · rintro ⟨h1, h2⟩
        refine ⟨(hasKey_eq_false_iff tl k).mpr
          (getKey_eq_none_of_not_mem_keys h1), ih.mpr h2⟩

/-- Core induction (on the size of the override tree) behind the schema
override push-down property of `_override_schemas`. -/
theorem overrideSchemas_spec :
    ∀ (n : Nat) (ov : List (String × PVal)) (procs : List (String × ProcTree)),
      sizeOf ov ≤ n →
      (ov.map Prod.fst).Nodup →
      alignedOv ov procs = true →
      ∃ procs', overrideSchemas ov procs = some procs' ∧
        (∀ path q, lookupProc procs path = some (.leaf q) →
          lookupProc procs' path = some (.leaf
            (match lookupOverride ov path with
             | some o => q.merge_overrides o
             | none => q))) ∧
        (∀ path sub, lookupProc procs path = some (.branch sub) →
          ∃ sub', lookupProc procs' path = some (.branch sub')) := by
  intro n
  induction n with
  | zero =>
      intro ov procs hsz
      exfalso
      cases ov <;> simp at hsz
  | succ n ihn =>
      intro ov procs hsz hnd hal
      cases ov with
      | nil =>
          refine ⟨procs, by simp [overrideSchemas], ?_, ?_⟩
          · intro path q hq
            rw [lookupOverride_nil path]
            exact hq
          · intro path sub hq
            exact ⟨sub, hq⟩
      | cons hd rest =>
          obtain ⟨key, override⟩ := hd
          have hszrest : sizeOf rest ≤ n := by
            simp at hsz; omega
          simp only [List.map_cons, List.nodup_cons] at hnd
          obtain ⟨hknotin, hndrest⟩ := hnd
          rw [alignedOv_cons, Bool.and_eq_true] at hal
          obtain ⟨hhead, hrestal⟩ := hal
          cases hkp : getKey procs key with
          | none => rw [hkp] at hhead; simp at hhead
          | some t =>
              rw [hkp] at hhead
              have hkrest : getKey rest key = none :=
                getKey_eq_none_of_not_mem_keys hknotin
              cases t with
              | leaf p =>
                  cases override with
                  | num x => simp [alignedVal] at hhead
                  | str x => simp [alignedVal] at hhead
                  | bool x => simp [alignedVal] at hhead
                  | pynone => simp [alignedVal] at hhead
                  | dict od =>
                      have haligned₁ :
                          alignedOv rest (setKey procs key
                            (.leaf (p.merge_overrides (.dict od)))) = true := by
                        rw [alignedOv_setKey_ne procs _ hknotin]
                        exact hrestal
                      obtain ⟨procs'', hrun, hleaf, hbranch⟩ :=
                        ihn rest _ hszrest hndrest haligned₁
                      refine ⟨procs'', ?_, ?_, ?_⟩
                      · rw [overrideSchemas_cons_leaf (.dict od) rest hkp]
                        exact hrun
                      · intro path q hq
                        match path with
                        | [] => simp at hq
                        | [k] =>
                            by_cases hkk : k = key
                            · subst hkk
                              rw [lookupProc_single, hkp] at hq
                              cases hq
                              have h₁ := hleaf [k] (p.merge_overrides (.dict od))
                                (by rw [lookupProc_single, getKey_setKey_self])
                              rw [lookupOverride_single, hkrest] at h₁
                              rw [lookupOverride_single, getKey_cons, if_pos rfl]
                              exact h₁
                            · have h₁ := hleaf [k] q
                                (by rw [lookupProc_single,
                                  getKey_setKey_ne procs key k _ hkk]
                                    exact hq)
                              rw [lookupOverride_single] at h₁
                              rw [lookupOverride_single, getKey_cons,
                                if_neg (Ne.symm hkk)]
                              exact h₁
                        | k :: k₂ :: prest =>
                            by_cases hkk : k = key
                            · subst hkk
                              rw [lookupProc_cons₂, hkp] at hq
                              simp at hq
                            · have h₁ := hleaf (k :: k₂ :: prest) q
                                (by rw [lookupProc_cons₂,
                                  getKey_setKey_ne procs key k _ hkk]
                                    exact hq)
                              rw [lookupOverride_cons₂] at h₁
                              rw [lookupOverride_cons₂, getKey_cons,
                                if_neg (Ne.symm hkk)]
                              exact h₁
                      · intro path sub hq
                        match path with
                        | [] => simp at hq
                        | [k] =>
                            by_cases hkk : k = key
                            · subst hkk
                              rw [lookupProc_single, hkp] at hq
                              simp at hq
                            · exact hbranch [k] sub
                                (by rw [lookupProc_single,
                                  getKey_setKey_ne procs key k _ hkk]
                                    exact hq)
                        | k :: k₂ :: prest =>
                            by_cases hkk : k = key
                            · subst hkk
                              rw [lookupProc_cons₂, hkp] at hq
                              simp at hq
                            · exact hbranch (k :: k₂ :: prest) sub
                                (by rw [lookupProc_cons₂,
                                  getKey_setKey_ne procs key k _ hkk]
                                    exact hq)
              | branch sub =>
                  cases override with
                  | num x => simp [alignedVal] at hhead
                  | str x => simp [alignedVal] at hhead
                  | bool x => simp [alignedVal] at hhead
                  | pynone => simp [alignedVal] at hhead
                  | dict od =>
                      have hhead' : (keysNodup od && alignedOv od sub) = true :=
                        hhead
                      rw [Bool.and_eq_true] at hhead'
                      obtain ⟨hodnd, hodal⟩ := hhead'
                      have hszod : sizeOf od ≤ n := by
                        simp at hsz; omega
                      obtain ⟨sub', hrunIn, hleafIn, hbranchIn⟩ :=
                        ihn od sub hszod ((keysNodup_iff od).mp hodnd) hodal
                      have haligned₁ :
                          alignedOv rest (setKey procs key (.branch sub')) =
                            true := by
                        rw [alignedOv_setKey_ne procs _ hknotin]
                        exact hrestal
                      obtain ⟨procs'', hrun2, hleaf2, hbranch2⟩ :=
                        ihn rest _ hszrest hndrest haligned₁
                      refine ⟨procs'', ?_, ?_, ?_⟩
                      · rw [overrideSchemas_cons_branch rest hkp hrunIn]
                        exact hrun2
                      · intro path q hq
                        match path with
                        | [] => simp at hq
                        | [k] =>
                            by_cases hkk : k = key
                            · subst hkk
                              rw [lookupProc_single, hkp] at hq
                              simp at hq
                            · have h₁ := hleaf2 [k] q
                                (by rw [lookupProc_single,
                                  getKey_setKey_ne procs key k _ hkk]
                                    exact hq)
                              rw [lookupOverride_single] at h₁
                              rw [lookupOverride_single, getKey_cons,
                                if_neg (Ne.symm hkk)]
                              exact h₁
                        | k :: k₂ :: prest =>
                            by_cases hkk : k = key
                            · subst hkk
                              rw [lookupProc_cons₂, hkp] at hq
                              have hq' : lookupProc sub (k₂ :: prest) =
                                  some (.leaf q) := hq
                              have h₂ := hleafIn (k₂ :: prest) q hq'
                              have h₃ := hleaf2 (k :: k₂ :: prest) _
                                (by rw [lookupProc_cons₂, getKey_setKey_self]
                                    exact h₂)
                              rw [lookupOverride_cons₂, hkrest] at h₃
                              rw [lookupOverride_cons₂, getKey_cons, if_pos rfl]
                              exact h₃
                            · have h₁ := hleaf2 (k :: k₂ :: prest) q
                                (by rw [lookupProc_cons₂,
                                  getKey_setKey_ne procs key k _ hkk]
                                    exact hq)
                              rw [lookupOverride_cons₂] at h₁
                              rw [lookupOverride_cons₂, getKey_cons,
                                if_neg (Ne.symm hkk)]
                              exact h₁
                      · intro path sub₂ hq
                        match path with
                        | [] => simp at hq
                        | [k] =>
                            by_cases hkk : k = key
                            · subst hkk
                              exact hbranch2 [k] sub'
                                (by rw [lookupProc_single, getKey_setKey_self])
                            · exact hbranch2 [k] sub₂
                                (by rw [lookupProc_single,
                                  getKey_setKey_ne procs key k _ hkk]
                                    exact hq)
                        | k :: k₂ :: prest =>
                            by_cases hkk : k = key
                            · subst hkk
                              rw [lookupProc_cons₂, hkp] at hq
                              have hq' : lookupProc sub (k₂ :: prest) =
                                  some (.branch sub₂) := hq
                              obtain ⟨sub₃, h₂⟩ := hbranchIn (k₂ :: prest) sub₂ hq'
                              exact hbranch2 (k :: k₂ :: prest) sub₃
                                (by rw [lookupProc_cons₂, getKey_setKey_self]
                                    exact h₂)
                            · exact hbranch2 (k :: k₂ :: prest) sub₂
                                (by rw [lookupProc_cons₂,
                                  getKey_setKey_ne procs key k _ hkk]
                                    exact hq)

/-- C5: for every nested override mapping and nested mapping of processes
with the same key structure, applying the schema overrides during
`generate` (`_override_schemas`) pushes each override down through
intermediate dictionary levels until it reaches a leaf `Process` under the
same key path, where it is deep-merged into that leaf's schema-override
set (`merge_overrides`); leaves not named by the override tree are
unchanged, and intermediate dictionary nodes remain dictionary nodes —
overrides are never applied at an intermediate level. -/
theorem override_schemas_pushdown (ov : List (String × PVal))
    (procs : List (String × ProcTree))
    (hnd : (ov.map Prod.fst).Nodup) (hal : alignedOv ov procs = true) :
    ∃ procs', overrideSchemas ov procs = some procs' ∧
      (∀ path q, lookupProc procs path = some (.leaf q) →
        lookupProc procs' path = some (.leaf
          (match lookupOverride ov path with
           | some o => q.merge_overrides o
           | none => q))) ∧
      (∀ path sub, lookupProc procs path = some (.branch sub) →
        ∃ sub', lookupProc procs' path = some (.branch sub')) :=
  overrideSchemas_spec (sizeOf ov) ov procs le_rfl hnd hal

/-- Witness for `override_schemas_pushdown`: one composite-level override
for `agent.proc1` pushed through a one-level hierarchy holding two leaf
processes. -/
theorem override_schemas_pushdown_witness :
    (([("agent", PVal.dict [("proc1",
        PVal.dict [("port", PVal.dict [("_default", PVal.num 3)])])])].map
        Prod.fst).Nodup) ∧
    alignedOv
      [("agent", PVal.dict [("proc1",
        PVal.dict [("port", PVal.dict [("_default", PVal.num 3)])])])]
      [("agent", ProcTree.branch
        [("proc1", ProcTree.leaf (Process.init "P" [] [])),
         ("other", ProcTree.leaf (Process.init "Q" [] []))])] = true ∧
    (∃ procs', overrideSchemas
        [("agent", PVal.dict [("proc1",
          PVal.dict [("port", PVal.dict [("_default", PVal.num 3)])])])]
        [("agent", ProcTree.branch
          [("proc1", ProcTree.leaf (Process.init "P" [] [])),
           ("other", ProcTree.leaf (Process.init "Q" [] []))])] = some procs' ∧
      (∀ path q, lookupProc
          [("agent", ProcTree.branch
            [("proc1", ProcTree.leaf (Process.init "P" [] [])),
             ("other", ProcTree.leaf (Process.init "Q" [] []))])] path =
          some (.leaf q) →
        lookupProc procs' path = some (.leaf
          (match lookupOverride
            [("agent", PVal.dict [("proc1",
              PVal.dict [("port", PVal.dict [("_default", PVal.num 3)])])])]
            path with
           | some o => q.merge_overrides o
           | none => q))) ∧
      (∀ path sub, lookupProc
          [("agent", ProcTree.branch
            [("proc1", ProcTree.leaf (Process.init "P" [] [])),
             ("other", ProcTree.leaf (Process.init "Q" [] []))])] path =
          some (.branch sub) →
        ∃ sub', lookupProc procs' path = some (.branch sub'))) :=
  ⟨by decide, rfl, override_schemas_pushdown _ _ (by decide) rfl⟩

end Vivarium
